import Mathlib

/-!
# Verification of the FFT WebSocket server backend

Shallow embedding of `backend-examples/python/fft_server.py` (and, where the
claims cite it, `fft_server_pi_debug.py`).  The stateful `_compute_fft` step is
embedded as a pure state-transition function; machine floats used for sample
values and wall-clock times are modelled by `ℚ` (every IEEE double is a
rational, and the control flow of the program only compares and adds them),
while the transcendental band/decibel mathematics is modelled over `ℝ`.
A numpy slice assignment whose shapes cannot broadcast raises `ValueError`;
that failure is modelled by `Option.none`.
-/

namespace FFTVis

/-! ## Definitions -/

/-- Constant `SAMPLE_RATE` of `fft_server.py`. -/
def SAMPLE_RATE : ℕ := 48000

/-- Constant `FFT_SIZE` of `fft_server.py` (buffer capacity). -/
def FFT_SIZE : ℕ := 1024

/-- Constant `FFT_BINS` of `fft_server.py` (band count). -/
def FFT_BINS : ℕ := 80

/-- Constant `FFT_FPS` of `fft_server.py` (target frame rate). -/
def FFT_FPS : ℕ := 120

/-- The mutable FFT state of `FFTServer.__init__` (lines 59–62): the rolling
sample buffer `_fft_buffer`, the write cursor `_fft_buffer_pos`, and the
last-frame timestamp `_last_fft_time`.  Sample values are an arbitrary type
`α` because the accumulator only moves them around. -/
structure FFTState (α : Type) where
  buffer : List α
  pos : ℕ
  lastTime : ℚ
deriving DecidableEq, Repr

/-- Initial FFT state set by `FFTServer.__init__`: a zero buffer of length
`cap = FFT_SIZE`, cursor `0`, timestamp `0.0`. -/
def initFFTState (cap : ℕ) (zero : α) : FFTState α :=
  ⟨List.replicate cap zero, 0, 0⟩

/-- The rolling-buffer ingest step, `fft_server.py` lines 156–168.
`buf[pos:pos+toAdd] = mono[:toAdd]; pos += toAdd`; when the chunk does not fit,
the buffer is left-shifted by the length of the remainder and the remainder is
written at the end, with the cursor set to `cap`.  When the remainder is longer
than the whole buffer, numpy cannot broadcast the final assignment
`buf[-shift:] = remaining` and raises; this is the `none` result.  In every
reachable state the cursor satisfies `pos ≤ cap` (proved below), under which
the `ℕ` subtraction `cap - pos` agrees with Python's. -/
def ingest (cap : ℕ) (buf : List α) (pos : ℕ) (mono : List α) :
    Option (List α × ℕ) :=
  let space := cap - pos
  let toAdd := min mono.length space
  let buf1 := buf.take pos ++ mono.take toAdd ++ buf.drop (pos + toAdd)
  if toAdd < mono.length then
    let remaining := mono.drop toAdd
    let shift := remaining.length
    if cap < shift then none
    else some (buf1.drop shift ++ remaining, cap)
  else some (buf1, pos + toAdd)

/-- The readiness check of `fft_server.py` line 170: the pipeline proceeds
exactly when `not (pos < FFT_SIZE)`. -/
def bufferReady (cap pos : ℕ) : Bool := ! decide (pos < cap)

/-- One call of `FFTServer._compute_fft` (lines 144–173), stripped of the
numeric frame computation: the rate-limit gate (line 147) runs first and on
rejection returns `None` with no state change at all; otherwise the chunk is
ingested; if the buffer is still not full, `None` is returned without touching
the timestamp; otherwise the timestamp is set to `now` and a frame is emitted
(the `true` flag).  `interval` is `_fft_interval = 1 / FFT_FPS`. -/
def computeStep (cap : ℕ) (interval : ℚ) (s : FFTState α) (now : ℚ)
    (mono : List α) : Option (FFTState α × Bool) :=
  if now - s.lastTime < interval then
    some (s, false)
  else
    match ingest cap s.buffer s.pos mono with
    | none => none
    | some (b, p) =>
      if bufferReady cap p then some (⟨b, p, now⟩, true)
      else some (⟨b, p, s.lastTime⟩, false)

/-- Multi-call accumulation, `chunks.foldlM` over the ingest step — the
Sample Accumulator driven by a sequence of capture chunks. -/
def ingestAll (cap : ℕ) (st : List α × ℕ) (chunks : List (List α)) :
    Option (List α × ℕ) :=
  chunks.foldlM (fun bp m => ingest cap bp.1 bp.2 m) st

/-- The process-wide `FFTServer` state touched by the connection and capture
lifecycle: the client list, the `running` flag, and the FFT state. -/
structure ServerState (α : Type) where
  clients : List ℕ
  running : Bool
  fft : FFTState α
deriving DecidableEq

/-- Constructor `FFTServer.__init__`: no clients, not running, fresh FFT
state. -/
def initServer (cap : ℕ) (zero : α) : ServerState α :=
  ⟨[], false, initFFTState cap zero⟩

/-- Lines 257–264 of `_handle_connection`: the new client is appended and,
when capture is not running, the capture-active flag is set and a new capture
session begins.  The FFT state fields are not touched. -/
def handleClientJoin (s : ServerState α) (c : ℕ) : ServerState α :=
  let s1 : ServerState α := { s with clients := s.clients ++ [c] }
  if s1.running then s1 else { s1 with running := true }

/-- The `finally` block of `_capture_loop` (lines 239–242): the capture
session ends, clearing only the `running` flag. -/
def captureSessionEnd (s : ServerState α) : ServerState α :=
  { s with running := false }

/-- The failure-collection loop of `_capture_loop` lines 225–230: iterate the
client list in order, attempt each send, and append each client whose send
fails (`sendOk c = false` models a raised exception) to `disconnected`. -/
def collectDisconnected {C : Type} (sendOk : C → Bool) (clients : List C) :
    List C :=
  clients.foldl (fun acc c => if sendOk c then acc else acc ++ [c]) []

/-- The removal loop of `_capture_loop` lines 232–233: after the full
iteration, each collected client is removed from the client list
(Python `list.remove` removes the first occurrence, `List.erase`). -/
def broadcastStep {C : Type} [DecidableEq C] (clients : List C)
    (sendOk : C → Bool) : List C :=
  (collectDisconnected sendOk clients).foldl List.erase clients

/-- The sequence of emission timestamps produced by driving `_compute_fft`
with a trace of timed capture chunks, as `_capture_loop` does.  A broadcast
failure inside the step (`none`) ends the capture loop, hence the trace. -/
def emissionTimes (cap : ℕ) (interval : ℚ) :
    FFTState α → List (ℚ × List α) → List ℚ
  | _, [] => []
  | s, (t, mono) :: rest =>
    match computeStep cap interval s t mono with
    | none => []
    | some (s', emit) =>
      if emit then t :: emissionTimes cap interval s' rest
      else emissionTimes cap interval s' rest

/-- The loop of `_compute_band_edges` (lines 75–79): starting at `freq`,
append `(freq, freq * r)` and multiply `freq` by `r`, once per band. -/
noncomputable def bandEdgesAux (r : ℝ) : ℝ → ℕ → List (ℝ × ℝ)
  | _, 0 => []
  | f, k + 1 => (f, f * r) :: bandEdgesAux r (f * r) k

/-- Exponent step `n = np.log2(FFT_END_FREQ / FFT_START_FREQ) / FFT_BINS`
(line 71), parametrised over the configuration constants. -/
noncomputable def bandStep (n : ℕ) (s e : ℝ) : ℝ :=
  Real.logb 2 (e / s) / n

/-- Function `_compute_band_edges` (lines 69–81), parametrised over
`(band_count, start_freq, end_freq)`; the deployed configuration is
`(FFT_BINS, 100, 18000)`.  The per-iteration multiplier is `2 ** n`
(line 77). -/
noncomputable def computeBandEdges (n : ℕ) (s e : ℝ) : List (ℝ × ℝ) :=
  bandEdgesAux ((2 : ℝ) ^ bandStep n s e) s n

/-- Band-table construction with its one error path made explicit: the plain
Python float division `FFT_END_FREQ / FFT_START_FREQ` on line 71 raises
`ZeroDivisionError` exactly when `start_freq = 0` (modelled `none`); for every
other divisor the call returns normally — `np.log2` of a non-positive
argument yields NaN or negative infinity with a runtime warning, not an
exception, so the loop still runs and the table still has `band_count`
entries (with junk values in that degenerate region, in both models). -/
noncomputable def computeBandEdgesChecked (n : ℕ) (s e : ℝ) :
    Option (List (ℝ × ℝ)) :=
  if s = 0 then none else some (computeBandEdges n s e)

/-- Constant `min_db` (line 201). -/
def minDb : ℝ := -85

/-- Constant `max_db` (line 201). -/
def maxDb : ℝ := -25

/-- The quantization of a single band value (lines 200–205):
`db = 20*log10(v + 1e-10)`, normalize against `(min_db, max_db)`,
`np.clip(_, 0, 1)`, `* 255`, `astype(np.uint8)` — truncation, which on the
clipped non-negative value equals the floor. -/
noncomputable def quantizeValue (v : ℝ) : ℤ :=
  ⌊min 1 (max 0 ((20 * Real.logb 10 (v + 1e-10) - minDb) / (maxDb - minDb)))
    * 255⌋

/-- The whole emitted frame: the quantizer applied to each band value. -/
noncomputable def quantizeFrame (vs : List ℝ) : List ℤ :=
  vs.map quantizeValue

/-- Python `int()`: truncation toward zero. -/
def pyInt (q : ℚ) : ℤ := if 0 ≤ q then ⌊q⌋ else -⌊-q⌋

/-- Bin width `bin_width = SAMPLE_RATE / FFT_SIZE` (lines 110 and 182). -/
def binWidth : ℚ := (SAMPLE_RATE : ℚ) / (FFT_SIZE : ℚ)

/-- A float magnitude: a number or IEEE NaN. -/
inductive FVal where
  | nan : FVal
  | val : ℚ → FVal
deriving DecidableEq, Repr

/-- IEEE addition on magnitudes: NaN propagates. -/
def FVal.add : FVal → FVal → FVal
  | val a, val b => val (a + b)
  | _, _ => nan

/-- IEEE subtraction on magnitudes: NaN propagates. -/
def FVal.sub : FVal → FVal → FVal
  | val a, val b => val (a - b)
  | _, _ => nan

/-- IEEE multiplication by a (non-NaN) scalar: NaN propagates. -/
def FVal.mulQ : FVal → ℚ → FVal
  | val a, r => val (a * r)
  | nan, _ => nan

/-- The clamped lower bin index of `_interpolate_fft`
(`bin_lo = max(0, min(bin_lo, len - 1))`, line 116). -/
def interpBinLo (len : ℕ) (freq : ℚ) : ℤ :=
  max 0 (min (pyInt (freq / binWidth)) ((len : ℤ) - 1))

/-- The upper bin index of `_interpolate_fft`
(`bin_hi = min(bin_lo + 1, len - 1)`, line 113 — computed from the
unclamped lower index). -/
def interpBinHi (len : ℕ) (freq : ℚ) : ℤ :=
  min (pyInt (freq / binWidth) + 1) ((len : ℤ) - 1)

/-- The interpolated value of `_interpolate_fft` before its NaN check
(line 118): `magnitude[bin_lo] + (magnitude[bin_hi] - magnitude[bin_lo]) *
ratio` with the fractional part `bin_pos - int(bin_pos)` as the mixing
coefficient. -/
def interpolateRaw (mags : List FVal) (freq : ℚ) : FVal :=
  let binPos := freq / binWidth
  let mlo := mags.getD (interpBinLo mags.length freq).toNat .nan
  let mhi := mags.getD (interpBinHi mags.length freq).toNat .nan
  mlo.add ((mhi.sub mlo).mulQ (binPos - pyInt binPos))

/-- Line 119 of `_interpolate_fft`:
`value if not np.isnan(value) else 0.0`. -/
def interpolateFft (mags : List FVal) (freq : ℚ) : ℚ :=
  match interpolateRaw mags freq with
  | .nan => 0
  | .val x => x

/-- The guarded interior-peak scan range of `_compute_fft` (lines 189–193):
`some (bin_lo, bin_hi)` is the inclusive index range actually read by
`np.max(magnitude[bin_lo:bin_hi + 1])`; `none` means the scan is skipped. -/
def interiorScan (len : ℕ) (lo hi : ℚ) : Option (ℤ × ℤ) :=
  let bLo := pyInt (lo / binWidth) + 1
  let bHi := pyInt (hi / binWidth)
  if bLo ≤ bHi ∧ bLo < (len : ℤ) then
    if bLo ≤ min bHi ((len : ℤ) - 1) then some (bLo, min bHi ((len : ℤ) - 1))
    else none
  else none

/-! ## Sanity checks on concrete inputs -/

example : ingest 4 [0, 0, 0, 0] 0 [1, 2, 3, 4] = some ([1, 2, 3, 4], 4) := by
  decide

example : ingest 4 [0, 0, 0, 0] 0 [1, 2] = some ([1, 2, 0, 0], 2) := by decide

example : ingest 4 [1, 2, 0, 0] 2 [3, 4, 5, 6] = some ([3, 4, 5, 6], 4) := by
  decide

example : ingest 4 [1, 2, 3, 4] 4 [5, 6] = some ([3, 4, 5, 6], 4) := by decide

example : ingest 4 [0, 0, 0, 0] 0 [1, 2, 3, 4, 5, 6, 7, 8, 9] = none := by
  decide

example :
    computeStep 4 (1 / 120) (⟨([0, 0, 0, 0] : List ℚ), 0, 100⟩) 100 [1] =
      some (⟨[0, 0, 0, 0], 0, 100⟩, false) := by norm_num [computeStep, ingest]

example :
    computeStep 4 (1 / 120) (⟨([0, 0, 0, 0] : List ℚ), 0, 100⟩) 101 [1, 2, 3, 4] =
      some (⟨[1, 2, 3, 4], 4, 101⟩, true) := by
  norm_num [computeStep, ingest, bufferReady]

/-! ## Lemmas about the ingest step -/

variable {α : Type}

/-- When the chunk fits in the remaining space the ingest step writes it at the
cursor and advances the cursor by the chunk length. -/
theorem ingest_fit {cap pos : ℕ} (buf mono : List α)
    (h : pos + mono.length ≤ cap) :
    ingest cap buf pos mono =
      some (buf.take pos ++ mono ++ buf.drop (pos + mono.length),
        pos + mono.length) := by
  have hmin : min mono.length (cap - pos) = mono.length := by omega
  simp only [ingest, hmin]
  rw [if_neg (by omega), List.take_length]

/-- When the chunk does not fit but its overflow remainder is no longer than
the whole buffer, the ingest step leaves the buffer holding the most recent
`cap` samples seen (the valid prefix of the old buffer followed by the chunk,
keeping only the last `cap` entries) with the cursor at `cap`. -/
theorem ingest_overflow {cap pos : ℕ} (buf mono : List α)
    (hbuf : buf.length = cap) (hpos : pos ≤ cap)
    (hlong : cap < pos + mono.length) (hbound : pos + mono.length ≤ 2 * cap) :
    ingest cap buf pos mono =
      some ((buf.take pos ++ mono).drop (pos + mono.length - cap), cap) := by
  have hmin : min mono.length (cap - pos) = cap - pos := by omega
  have hshift : (mono.drop (cap - pos)).length = pos + mono.length - cap := by
    simp; omega
  have hdropbuf : buf.drop (pos + (cap - pos)) = [] := by
    have h1 : pos + (cap - pos) = cap := by omega
    rw [h1, ← hbuf, List.drop_length]
  have hle : pos + mono.length - cap ≤
      (buf.take pos ++ mono.take (cap - pos)).length := by
    simp only [List.length_append, List.length_take]
    omega
  have hsplit : buf.take pos ++ mono =
      (buf.take pos ++ mono.take (cap - pos)) ++ mono.drop (cap - pos) := by
    rw [List.append_assoc, List.take_append_drop]
  have hgoal : (buf.take pos ++ mono).drop (pos + mono.length - cap) =
      (buf.take pos ++ mono.take (cap - pos)).drop (pos + mono.length - cap)
        ++ mono.drop (cap - pos) := by
    rw [hsplit, List.drop_append_of_le_length hle]
  simp only [ingest, hmin]
  rw [if_pos (by omega), hshift, if_neg (by omega), hdropbuf, List.append_nil,
    hgoal]

/-- The ingest step succeeds (no numpy broadcast failure) and preserves the
basic cursor/length invariants whenever the overflow remainder fits in the
buffer. -/
theorem ingest_invariants {cap pos : ℕ} (buf mono : List α)
    (hbuf : buf.length = cap) (hpos : pos ≤ cap)
    (hbound : pos + mono.length ≤ 2 * cap) :
    ∃ b p, ingest cap buf pos mono = some (b, p) ∧
      pos ≤ p ∧ p ≤ cap ∧ b.length = cap ∧
      (pos = cap → p = cap) ∧
      (cap ≤ pos + mono.length → p = cap) ∧
      (pos + mono.length ≤ cap → p = pos + mono.length) := by
  rcases le_or_lt (pos + mono.length) cap with hfit | hlong
  · refine ⟨_, _, ingest_fit buf mono hfit, by omega, by omega, ?_, by omega,
      by omega, by omega⟩
    simp only [List.length_append, List.length_take, List.length_drop]
    omega
  · refine ⟨_, _, ingest_overflow buf mono hbuf hpos hlong hbound, by omega,
      by omega, ?_, by omega, by omega, by omega⟩
    simp only [List.length_drop, List.length_append, List.length_take]
    omega

/-- As long as the cumulative sample count stays within the capacity, the
cursor after ingesting a sequence of chunks is exactly the cumulative count. -/
theorem ingestAll_cumulative {cap : ℕ} :
    ∀ (chunks : List (List α)) (buf : List α) (pos : ℕ),
      buf.length = cap → pos ≤ cap →
      pos + (chunks.map List.length).sum ≤ cap →
      ∃ b, ingestAll cap (buf, pos) chunks =
        some (b, pos + (chunks.map List.length).sum) ∧ b.length = cap
  | [], buf, pos, hbuf, _, _ => ⟨buf, by simp [ingestAll], hbuf⟩
  | mono :: chunks, buf, pos, hbuf, hpos, hsum => by
    have hfit : pos + mono.length ≤ cap := by
      simp only [List.map_cons, List.sum_cons] at hsum
      omega
    obtain ⟨b, p, hstep, -, hple, hblen, -, -, hp⟩ :=
      ingest_invariants buf mono hbuf hpos (by omega)
    obtain ⟨b', hrest, hblen'⟩ :=
      ingestAll_cumulative chunks b p hblen hple
        (by simp only [List.map_cons, List.sum_cons] at hsum; omega)
    refine ⟨b', ?_, hblen'⟩
    simp only [ingestAll, List.foldlM_cons, hstep, Option.bind_eq_bind,
      Option.some_bind]
    rw [hp hfit] at hrest ⊢
    simp only [ingestAll] at hrest
    rw [hrest]
    congr 2
    simp only [List.map_cons, List.sum_cons]
    omega

/-! ## Claims C1, C4, C10 -/

/-- C1 counterexample: a chunk arriving while the frame-rate gate rejects
(`now - last = 0 < 1/120`) leaves the buffer and cursor completely unchanged
(cursor stays `0`), whereas ingestion of the same chunk would have advanced
the cursor to `1`: the Sample Accumulator does NOT still run. -/
theorem c1_counterexample :
    computeStep 4 (1 / 120) (⟨[0, 0, 0, 0], 0, 100⟩ : FFTState ℕ) 100 [7] =
      some (⟨[0, 0, 0, 0], 0, 100⟩, false) ∧
    ingest 4 ([0, 0, 0, 0] : List ℕ) 0 [7] = some ([7, 0, 0, 0], 1) ∧
    (0 : ℕ) ≠ 1 := by
  refine ⟨by norm_num [computeStep], by decide, by decide⟩

/-- C1 (amended): while the frame-rate gate rejects
(`now - last_fft_time < interval`, line 147), `_compute_fft` returns `None`
immediately: the chunk is skipped entirely — its samples are NOT ingested into
the rolling buffer, the cursor and timestamp are unchanged, and no frame is
emitted. -/
theorem c1_gate_reject_skips_everything (cap : ℕ) (interval : ℚ)
    (s : FFTState α) (now : ℚ) (mono : List α)
    (h : now - s.lastTime < interval) :
    computeStep cap interval s now mono = some (s, false) := by
  simp [computeStep, h]

/-- C1 witness: concrete gate-rejected call. -/
theorem c1_witness :
    ((100 : ℚ) - (⟨[0, 0, 0, 0], 0, 100⟩ : FFTState ℕ).lastTime < 1 / 120) ∧
    computeStep 4 (1 / 120) (⟨[0, 0, 0, 0], 0, 100⟩ : FFTState ℕ) 100 [7] =
      some ((⟨[0, 0, 0, 0], 0, 100⟩ : FFTState ℕ), false) :=
  ⟨by norm_num,
    c1_gate_reject_skips_everything 4 (1 / 120)
      (⟨[0, 0, 0, 0], 0, 100⟩ : FFTState ℕ) 100 [7] (by norm_num)⟩

/-- C4 counterexample: ingesting a chunk whose overflow remainder exceeds the
whole buffer (5 samples into capacity 2) does not leave the buffer holding the
most recent 2 samples `[4, 5]` — the numpy assignment
`buf[-shift:] = remaining` cannot broadcast and the call raises
(modelled `none`). -/
theorem c4_counterexample :
    ingest 2 ([0, 0] : List ℕ) 0 [1, 2, 3, 4, 5] = none ∧
    ingest 2 ([0, 0] : List ℕ) 0 [1, 2, 3, 4, 5] ≠ some ([4, 5], 2) := by
  decide

/-- C4 (amended): the Sample Accumulator contract, restricted to chunks whose
overflow remainder fits in the buffer (`pos + mono.length ≤ 2 * cap`; larger
chunks raise a broadcast error): a full-capacity chunk into an empty buffer
yields a ready buffer equal to the chunk; cumulative ingestion below capacity
keeps the cursor at the cumulative count (not ready); an overfull chunk leaves
exactly the most recent `cap` samples in original order with the cursor at
`cap`; and readiness holds exactly when `pos = cap`. -/
theorem c4_sample_accumulator (cap : ℕ) (buf mono : List α)
    (chunks : List (List α)) (pos : ℕ)
    (hbuf : buf.length = cap) (hpos : pos ≤ cap)
    (hbound : pos + mono.length ≤ 2 * cap) :
    (mono.length = cap → ingest cap buf 0 mono = some (mono, cap)) ∧
    ((chunks.map List.length).sum < cap →
      ∃ b, ingestAll cap (buf, 0) chunks =
          some (b, (chunks.map List.length).sum) ∧
        bufferReady cap (chunks.map List.length).sum = false) ∧
    (cap < pos + mono.length →
      ingest cap buf pos mono =
        some ((buf.take pos ++ mono).drop (pos + mono.length - cap), cap)) ∧
    (bufferReady cap pos = true ↔ pos = cap) := by
  refine ⟨?_, ?_, ?_, ?_⟩
  · intro h
    rw [ingest_fit buf mono (by omega)]
    simp only [List.take_zero, List.nil_append, Nat.zero_add, h, ← hbuf,
      List.drop_length, List.append_nil]
  · intro hlt
    obtain ⟨b, hall, -⟩ :=
      ingestAll_cumulative chunks buf 0 hbuf (by omega) (by omega)
    refine ⟨b, by simpa using hall, ?_⟩
    simp only [bufferReady, Bool.not_eq_false', decide_eq_true_eq]
    exact hlt
  · intro hlong
    exact ingest_overflow buf mono hbuf hpos hlong hbound
  · simp only [bufferReady, Bool.not_eq_true', decide_eq_false_iff_not,
      Nat.not_lt]
    constructor <;> omega

/-- C4 witness: concrete instantiation (capacity 2, one sample already in the
buffer, a three-sample chunk, a one-sample chunk sequence). -/
theorem c4_witness :
    (([0, 0] : List ℕ).length = 2 ∧ (1 : ℕ) ≤ 2 ∧
      1 + ([2, 3, 4] : List ℕ).length ≤ 2 * 2) ∧
    ((([2, 3, 4] : List ℕ).length = 2 →
        ingest 2 ([0, 0] : List ℕ) 0 [2, 3, 4] = some ([2, 3, 4], 2)) ∧
      ((([[9]] : List (List ℕ)).map List.length).sum < 2 →
        ∃ b, ingestAll 2 (([0, 0] : List ℕ), 0) [[9]] =
            some (b, (([[9]] : List (List ℕ)).map List.length).sum) ∧
          bufferReady 2 (([[9]] : List (List ℕ)).map List.length).sum =
            false) ∧
      (2 < 1 + ([2, 3, 4] : List ℕ).length →
        ingest 2 ([0, 0] : List ℕ) 1 [2, 3, 4] =
          some ((([0, 0] : List ℕ).take 1 ++ [2, 3, 4]).drop
            (1 + ([2, 3, 4] : List ℕ).length - 2), 2)) ∧
      (bufferReady 2 1 = true ↔ 1 = 2)) :=
  ⟨by decide, c4_sample_accumulator 2 [0, 0] [2, 3, 4] [[9]] 1
    (by decide) (by decide) (by decide)⟩

/-- C10: across a call to `_compute_fft` the write cursor satisfies
`0 ≤ pos ≤ capacity` (the lower bound is `ℕ`), never decreases, is absorbing
at `capacity`, and once the buffer is full every rate-admitted chunk produces
a frame.  Chunks are assumed no longer than the capacity (the ALSA period is
256 frames against a 1024-sample buffer), which also rules out the broadcast
failure. -/
theorem c10_cursor_invariant (cap : ℕ) (interval : ℚ) (s : FFTState α)
    (now : ℚ) (mono : List α) (hbuf : s.buffer.length = cap)
    (hpos : s.pos ≤ cap) (hlen : mono.length ≤ cap) :
    ∃ s' emit, computeStep cap interval s now mono = some (s', emit) ∧
      s.pos ≤ s'.pos ∧ s'.pos ≤ cap ∧ s'.buffer.length = cap ∧
      (s.pos = cap → s'.pos = cap) ∧
      (s.pos = cap → ¬ now - s.lastTime < interval → emit = true) := by
  by_cases hgate : now - s.lastTime < interval
  · exact ⟨s, false, by simp [computeStep, hgate], le_refl _, hpos, hbuf,
      fun h => h, fun _ hc => absurd hgate hc⟩
  · obtain ⟨b, p, hing, hmono, hple, hblen, hcapkeep, -, -⟩ :=
      ingest_invariants s.buffer mono hbuf hpos (by omega)
    by_cases hready : p < cap
    · refine ⟨⟨b, p, s.lastTime⟩, false, ?_, hmono, hple, hblen,
        fun h => hcapkeep h,
        fun h _ => absurd (hcapkeep h ▸ hready) (lt_irrefl cap)⟩
      simp [computeStep, hgate, hing, bufferReady, hready]
    · refine ⟨⟨b, p, now⟩, true, ?_, hmono, hple, hblen,
        fun _ => by show p = cap; omega, fun _ _ => rfl⟩
      simp [computeStep, hgate, hing, bufferReady, hready]

/-- C10 witness: a full buffer stays full and the admitted chunk emits. -/
theorem c10_witness :
    ((⟨[1, 2], 2, 0⟩ : FFTState ℕ).buffer.length = 2 ∧
      (⟨[1, 2], 2, 0⟩ : FFTState ℕ).pos ≤ 2 ∧ ([9] : List ℕ).length ≤ 2) ∧
    (∃ s' emit,
      computeStep 2 (1 / 2) (⟨[1, 2], 2, 0⟩ : FFTState ℕ) 1 [9] =
        some (s', emit) ∧
      (⟨[1, 2], 2, 0⟩ : FFTState ℕ).pos ≤ s'.pos ∧ s'.pos ≤ 2 ∧
      s'.buffer.length = 2 ∧
      ((⟨[1, 2], 2, 0⟩ : FFTState ℕ).pos = 2 → s'.pos = 2) ∧
      ((⟨[1, 2], 2, 0⟩ : FFTState ℕ).pos = 2 →
        ¬ (1 : ℚ) - (⟨[1, 2], 2, 0⟩ : FFTState ℕ).lastTime < 1 / 2 →
        emit = true)) :=
  ⟨⟨by decide, by decide, by decide⟩,
    c10_cursor_invariant 2 (1 / 2) (⟨[1, 2], 2, 0⟩ : FFTState ℕ) 1 [9]
      (by decide) (by decide) (by decide)⟩

/-! ## Server lifecycle (claim C2) -/

/-- C2 counterexample: a first session fills the buffer and emits a frame at
time 10; the last client leaves and the capture loop ends; a new client joins
and a new capture session begins — and the new session still observes the old
session's buffer contents `[5, 6]`, cursor `2` and timestamp `10`, not the
discarded/initial state. -/
theorem c2_counterexample :
    computeStep 2 (1 / 2) (handleClientJoin (initServer 2 (0 : ℕ)) 1).fft 10
        [5, 6] = some (⟨[5, 6], 2, 10⟩, true) ∧
    (handleClientJoin (captureSessionEnd
        { handleClientJoin (initServer 2 (0 : ℕ)) 1 with
          clients := [], fft := ⟨[5, 6], 2, 10⟩ }) 2).running = true ∧
    (handleClientJoin (captureSessionEnd
        { handleClientJoin (initServer 2 (0 : ℕ)) 1 with
          clients := [], fft := ⟨[5, 6], 2, 10⟩ }) 2).fft =
      (⟨[5, 6], 2, 10⟩ : FFTState ℕ) ∧
    (⟨[5, 6], 2, 10⟩ : FFTState ℕ) ≠ initFFTState 2 0 := by
  refine ⟨?_, ?_, ?_, ?_⟩
  · norm_num [computeStep, ingest, bufferReady, handleClientJoin, initServer,
      initFFTState, List.replicate]
  · rfl
  · rfl
  · simp [initFFTState, FFTState.mk.injEq, List.replicate]

/-- C2 (amended): the SampleBuffer, its cursor and the last-frame timestamp
are initialized once at server construction and are NOT reset when capture
restarts: neither a client join (which starts a new capture session when the
set was empty) nor the end of a capture session touches them, so state from
the previous session remains observable in the next one. -/
theorem c2_fft_state_survives_restart (cap : ℕ) (zero : α)
    (s : ServerState α) (c : ℕ) :
    (handleClientJoin s c).fft = s.fft ∧
    (captureSessionEnd s).fft = s.fft ∧
    (initServer cap zero).fft = initFFTState cap zero := by
  refine ⟨?_, rfl, rfl⟩
  by_cases hr : s.running <;> simp [handleClientJoin, hr]

/-! ## Broadcast Manager (claim C8) -/

/-- The failure-collection loop visits every client and collects exactly the
failing ones, in order. -/
theorem collectDisconnected_eq_filter {C : Type} (p : C → Bool)
    (l : List C) :
    collectDisconnected p l = l.filter (fun c => ! p c) := by
  suffices h : ∀ acc : List C,
      l.foldl (fun acc c => if p c then acc else acc ++ [c]) acc =
        acc ++ l.filter (fun c => ! p c) by
    simpa [collectDisconnected] using h []
  induction l with
  | nil => simp
  | cons c t ih =>
    intro acc
    by_cases hc : p c <;>
      simp [List.filter_cons, hc, List.foldl_cons, ih, List.append_assoc]

/-- Erasing a batch of elements not containing `c` from `c :: t` keeps the
head. -/
theorem foldl_erase_cons {C : Type} [DecidableEq C] :
    ∀ (D : List C) (c : C) (t : List C), c ∉ D →
      D.foldl List.erase (c :: t) = c :: D.foldl List.erase t
  | [], _, _, _ => rfl
  | d :: D, c, t, h => by
    have hcd : ¬(c == d) := by
      have : c ≠ d := fun he => h (he ▸ List.mem_cons_self d D)
      simpa using this
    rw [List.foldl_cons, List.foldl_cons, List.erase_cons_tail hcd,
      foldl_erase_cons D c (t.erase d)
        (fun hm => h (List.mem_cons_of_mem d hm))]

/-- On a duplicate-free list, erasing exactly the elements failing `p` leaves
exactly the elements satisfying `p`. -/
theorem foldl_erase_filter {C : Type} [DecidableEq C] (p : C → Bool) :
    ∀ l : List C, l.Nodup →
      (l.filter (fun c => ! p c)).foldl List.erase l = l.filter p
  | [], _ => rfl
  | c :: t, h => by
    have hnm : c ∉ t := (List.nodup_cons.mp h).1
    have ht : t.Nodup := (List.nodup_cons.mp h).2
    by_cases hc : p c
    · rw [List.filter_cons_of_neg (by simp [hc]),
        foldl_erase_cons _ c t
          (fun hm => hnm (List.mem_of_mem_filter hm)),
        foldl_erase_filter p t ht, List.filter_cons_of_pos hc]
    · rw [List.filter_cons_of_pos (by simp [hc]), List.foldl_cons,
        List.erase_cons_head, foldl_erase_filter p t ht,
        List.filter_cons_of_neg hc]

/-- C8: during a broadcast every client of the starting list is attempted
(the failure set is computed as a pure function of the whole starting list —
removal happens only after the iteration), the surviving set is exactly the
clients whose send succeeded, in order, and a failing client never knocks a
succeeding one out of the set. -/
theorem c8_broadcast_isolation {C : Type} [DecidableEq C]
    (clients : List C) (sendOk : C → Bool) (h : clients.Nodup) :
    collectDisconnected sendOk clients =
      clients.filter (fun c => ! sendOk c) ∧
    broadcastStep clients sendOk = clients.filter (fun c => sendOk c) ∧
    (∀ c ∈ clients, sendOk c = true → c ∈ broadcastStep clients sendOk) ∧
    (∀ c ∈ clients, sendOk c = false → c ∉ broadcastStep clients sendOk) := by
  have h1 := collectDisconnected_eq_filter sendOk clients
  have h2 : broadcastStep clients sendOk =
      clients.filter (fun c => sendOk c) := by
    rw [broadcastStep, h1, foldl_erase_filter sendOk clients h]
  refine ⟨h1, h2, ?_, ?_⟩
  · intro c hc hok
    rw [h2]
    exact List.mem_filter.mpr ⟨hc, hok⟩
  · intro c hc hfail hmem
    rw [h2] at hmem
    have := (List.mem_filter.mp hmem).2
    rw [hfail] at this
    exact Bool.false_ne_true this

/-- C8 witness: three clients, the middle send fails; both others receive the
frame and stay. -/
theorem c8_witness :
    ([0, 1, 2] : List ℕ).Nodup ∧
    (collectDisconnected (fun c => c != 1) ([0, 1, 2] : List ℕ) =
        ([0, 1, 2] : List ℕ).filter (fun c => ! (c != 1)) ∧
      broadcastStep ([0, 1, 2] : List ℕ) (fun c => c != 1) =
        ([0, 1, 2] : List ℕ).filter (fun c => c != 1) ∧
      (∀ c ∈ ([0, 1, 2] : List ℕ), (c != 1) = true →
        c ∈ broadcastStep ([0, 1, 2] : List ℕ) (fun c => c != 1)) ∧
      (∀ c ∈ ([0, 1, 2] : List ℕ), (c != 1) = false →
        c ∉ broadcastStep ([0, 1, 2] : List ℕ) (fun c => c != 1))) :=
  ⟨by decide, c8_broadcast_isolation [0, 1, 2] (fun c => c != 1) (by decide)⟩

/-! ## Frame Scheduler (claim C9) -/

/-- What one `_compute_fft` call does to the last-frame timestamp: it is set
to `now` exactly on frame emission, which requires the gate to have admitted
(`interval ≤ now - last`); on any non-emitting call it is untouched. -/
theorem computeStep_lastTime {cap : ℕ} {interval : ℚ} {s : FFTState α}
    {now : ℚ} {mono : List α} {s' : FFTState α} {emit : Bool}
    (h : computeStep cap interval s now mono = some (s', emit)) :
    (emit = true → interval ≤ now - s.lastTime ∧ s'.lastTime = now) ∧
    (emit = false → s'.lastTime = s.lastTime) := by
  unfold computeStep at h
  by_cases hgate : now - s.lastTime < interval
  · rw [if_pos hgate] at h
    simp only [Option.some.injEq, Prod.mk.injEq] at h
    obtain ⟨hs, he⟩ := h
    exact ⟨fun ht => absurd (he.trans ht) Bool.false_ne_true,
      fun _ => hs ▸ rfl⟩
  · rw [if_neg hgate] at h
    rcases hing : ingest cap s.buffer s.pos mono with _ | ⟨b, p⟩ <;>
      rw [hing] at h
    · exact absurd h (by simp)
    · by_cases hready : bufferReady cap p = true <;>
        simp only [hready, if_pos, if_neg, Bool.false_eq_true,
          Option.some.injEq, Prod.mk.injEq, if_true, if_false] at h
      · obtain ⟨hs, he⟩ := h
        refine ⟨fun _ => ⟨le_of_not_lt hgate, ?_⟩,
          fun hf => Bool.noConfusion (he.trans hf)⟩
        rw [← hs]
      · obtain ⟨hs, he⟩ := h
        exact ⟨fun ht => absurd (he.trans ht) Bool.false_ne_true,
          fun _ => by rw [← hs]⟩

/-- Emission times are spaced at least `interval` apart, and the first one is
at least `interval` after the state's last-frame timestamp. -/
theorem emissionTimes_chain (cap : ℕ) (interval : ℚ) :
    ∀ (events : List (ℚ × List α)) (s : FFTState α),
      List.Chain' (fun a b => a + interval ≤ b)
        (emissionTimes cap interval s events) ∧
      (∀ t ∈ (emissionTimes cap interval s events).head?,
        s.lastTime + interval ≤ t)
  | [], s => ⟨List.chain'_nil, by simp [emissionTimes]⟩
  | (t, mono) :: rest, s => by
    rcases hstep : computeStep cap interval s t mono with _ | ⟨s', emit⟩
    · simp [emissionTimes, hstep]
    · cases emit
      · have hlast := (computeStep_lastTime hstep).2 rfl
        have ih := emissionTimes_chain cap interval rest s'
        simp only [emissionTimes, hstep, Bool.false_eq_true, if_false]
        exact ⟨ih.1, fun u hu => hlast ▸ ih.2 u hu⟩
      · obtain ⟨hgate, hnow⟩ := (computeStep_lastTime hstep).1 rfl
        have ih := emissionTimes_chain cap interval rest s'
        simp only [emissionTimes, hstep, if_true]
        refine ⟨List.chain'_cons'.mpr ⟨fun y hy => ?_, ih.1⟩, fun u hu => ?_⟩
        · have := ih.2 y hy
          rw [hnow] at this
          exact this
        · simp only [List.head?_cons, Option.mem_def, Option.some.injEq]
            at hu
          subst hu
          linarith
termination_by events => events.length

/-- Along a chain with gaps of at least `d`, every element after the head is
at least `d` above the head. -/
theorem chain_lower_bound {d : ℚ} (hd : 0 ≤ d) :
    ∀ (ts : List ℚ) (a : ℚ), List.Chain (fun x y => x + d ≤ y) a ts →
      ∀ u ∈ ts, a + d ≤ u
  | [], _, _, u, hu => absurd hu (List.not_mem_nil u)
  | b :: ts, a, h, u, hu => by
    rcases List.chain_cons.mp h with ⟨hab, hchain⟩
    rcases List.mem_cons.mp hu with rfl | hu'
    · exact hab
    · have := chain_lower_bound hd ts b hchain u hu'
      linarith

/-- A list of rationals with pairwise-consecutive gaps of at least `d > 0`,
all lying in `[L, U)`, has fewer than `(U - L)/d + 1` elements. -/
theorem chain_count_bound {d : ℚ} (hd : 0 < d) :
    ∀ (ts : List ℚ) (L U : ℚ),
      List.Chain' (fun x y => x + d ≤ y) ts →
      (∀ t ∈ ts, L ≤ t ∧ t < U) →
      (ts.length : ℚ) * d < U - L + d ∨ ts = []
  | [], _, _, _, _ => Or.inr rfl
  | t :: ts, L, U, hchain, hbound => by
    left
    have hchain' : List.Chain (fun x y => x + d ≤ y) t ts := hchain
    have hLt := hbound t (List.mem_cons_self t ts)
    rcases chain_count_bound hd ts (t + d) U
        ((List.chain'_cons'.mp hchain).2)
        (fun u hu => ⟨chain_lower_bound hd.le ts t hchain' u hu,
          (hbound u (List.mem_cons_of_mem t hu)).2⟩) with hlt | hnil
    · have hlen : ((t :: ts).length : ℚ) = (ts.length : ℚ) + 1 := by
        push_cast [List.length_cons]
        ring
      rw [hlen]
      have : (ts.length : ℚ) * d < U - t := by linarith
      nlinarith [hLt.1, hLt.2]
    · subst hnil
      simp only [List.length_cons, List.length_nil, Nat.cast_one, zero_add,
        Nat.cast_ofNat, Nat.cast_zero]
      nlinarith [hLt.1, hLt.2]

/-- C9: the Frame Scheduler admits a frame only when
`now - last_frame_time ≥ 1/target_fps` and stamps `last_frame_time := now` on
acceptance; consecutive emitted frames are at least `1/target_fps` apart; and
within any window `[T, T+1)` of one second at most `target_fps` frames are
emitted, however many capture chunks arrive. -/
theorem c9_frame_scheduler (cap fps : ℕ) (hfps : 1 ≤ fps)
    (s : FFTState α) (events : List (ℚ × List α)) (T : ℚ) :
    (∀ (s₀ : FFTState α) (now : ℚ) (mono : List α) (s' : FFTState α),
      computeStep cap (1 / (fps : ℚ)) s₀ now mono = some (s', true) →
      1 / (fps : ℚ) ≤ now - s₀.lastTime ∧ s'.lastTime = now) ∧
    List.Chain' (fun a b => a + 1 / (fps : ℚ) ≤ b)
      (emissionTimes cap (1 / (fps : ℚ)) s events) ∧
    ((∀ t ∈ emissionTimes cap (1 / (fps : ℚ)) s events, T ≤ t ∧ t < T + 1) →
      (emissionTimes cap (1 / (fps : ℚ)) s events).length ≤ fps) := by
  have hfpos : (0 : ℚ) < fps := by
    exact_mod_cast Nat.lt_of_lt_of_le Nat.zero_lt_one hfps
  have hd : (0 : ℚ) < 1 / fps := by positivity
  refine ⟨fun s₀ now mono s' h => (computeStep_lastTime h).1 rfl,
    (emissionTimes_chain cap _ events s).1, fun hb => ?_⟩
  rcases chain_count_bound hd (emissionTimes cap (1 / (fps : ℚ)) s events)
      T (T + 1) (emissionTimes_chain cap _ events s).1 hb with hlt | hnil
  · set n : ℕ := (emissionTimes cap (1 / (fps : ℚ)) s events).length with hn
    have h1 : (n : ℚ) * (1 / fps) < 1 + 1 / fps := by linarith
    have h2 : (n : ℚ) < fps + 1 := by
      have h3 := mul_lt_mul_of_pos_right h1 hfpos
      rw [mul_assoc, one_div_mul_cancel (ne_of_gt hfpos), mul_one,
        add_mul, one_mul, one_div_mul_cancel (ne_of_gt hfpos)] at h3
      exact h3
    have h4 : n < fps + 1 := by exact_mod_cast h2
    omega
  · simp only [hnil, List.length_nil]
    omega

/-- C9 witness: concrete instantiation at capacity 1, 1 fps, empty trace. -/
theorem c9_witness :
    1 ≤ 1 ∧
    ((∀ (s₀ : FFTState ℕ) (now : ℚ) (mono : List ℕ) (s' : FFTState ℕ),
        computeStep 1 (1 / ((1 : ℕ) : ℚ)) s₀ now mono = some (s', true) →
        1 / ((1 : ℕ) : ℚ) ≤ now - s₀.lastTime ∧ s'.lastTime = now) ∧
      List.Chain' (fun a b => a + 1 / ((1 : ℕ) : ℚ) ≤ b)
        (emissionTimes 1 (1 / ((1 : ℕ) : ℚ)) (⟨[0], 0, 0⟩ : FFTState ℕ) []) ∧
      ((∀ t ∈ emissionTimes 1 (1 / ((1 : ℕ) : ℚ))
          (⟨[0], 0, 0⟩ : FFTState ℕ) [], (0 : ℚ) ≤ t ∧ t < 0 + 1) →
        (emissionTimes 1 (1 / ((1 : ℕ) : ℚ))
          (⟨[0], 0, 0⟩ : FFTState ℕ) []).length ≤ 1)) :=
  ⟨by decide, c9_frame_scheduler 1 1 (by decide) (⟨[0], 0, 0⟩ : FFTState ℕ)
    [] 0⟩

/-! ## Band Table (claims C3 and C5) -/

/-- The band-edge loop produces one entry per band. -/
theorem bandEdgesAux_length (r : ℝ) :
    ∀ (k : ℕ) (f : ℝ), (bandEdgesAux r f k).length = k
  | 0, _ => rfl
  | k + 1, f => by
    simp only [bandEdgesAux, List.length_cons, bandEdgesAux_length r k]

/-- Closed form of the band edges: entry `i` is
`(f * r ^ i, f * r ^ (i + 1))`. -/
theorem bandEdgesAux_getD (r : ℝ) :
    ∀ (k : ℕ) (f : ℝ) (i : ℕ), i < k →
      (bandEdgesAux r f k).getD i (0, 0) = (f * r ^ i, f * r ^ (i + 1))
  | 0, _, i, hi => absurd hi (Nat.not_lt_zero i)
  | k + 1, f, 0, _ => by
    simp [bandEdgesAux, pow_one]
  | k + 1, f, i + 1, hi => by
    have := bandEdgesAux_getD r k (f * r) i (by omega)
    simp only [bandEdgesAux, List.getD_cons_succ, this, Prod.mk.injEq]
    constructor <;> ring

/-- C3 counterexample: with `band_count = 0` — violating the claimed
precondition `band_count ≥ 1` — band-table construction does not fail with
any error: it returns normally (with an empty table).  No
`ConfigurationError` (nor any validation) exists in the code. -/
theorem c3_counterexample : computeBandEdges 0 100 18000 = [] := rfl

/-- C3 (amended): band-table construction validates nothing and never raises
a `ConfigurationError` (none exists in the code).  With `band_count = 0`,
violating the claimed precondition, it returns normally with an empty table
rather than failing.  For every `start_freq ≠ 0` it returns normally with
exactly `band_count` entries, whether or not the preconditions hold; at
`start_freq = 0` the float division of line 71 raises `ZeroDivisionError` —
still not a `ConfigurationError`.  The deployed parameters `(80, 100, 18000)`
do satisfy `band_count ≥ 1` and `end_freq > start_freq > 0`. -/
theorem c3_no_validation (n : ℕ) (s e : ℝ) (hs : s ≠ 0) :
    computeBandEdgesChecked n s e = some (computeBandEdges n s e) ∧
    (computeBandEdges n s e).length = n ∧
    computeBandEdgesChecked n 0 e = none ∧
    (1 ≤ FFT_BINS ∧ (0 : ℝ) < 100 ∧ (100 : ℝ) < 18000) :=
  ⟨by simp [computeBandEdgesChecked, hs], bandEdgesAux_length _ n s,
    by simp [computeBandEdgesChecked], by norm_num [FFT_BINS]⟩

/-- C3 witness: the deployed `start_freq = 100` with a degenerate band count
of `0`. -/
theorem c3_witness :
    ((100 : ℝ) ≠ 0) ∧
    (computeBandEdgesChecked 0 100 18000 =
        some (computeBandEdges 0 100 18000) ∧
      (computeBandEdges 0 100 18000).length = 0 ∧
      computeBandEdgesChecked 0 0 18000 = none ∧
      (1 ≤ FFT_BINS ∧ (0 : ℝ) < 100 ∧ (100 : ℝ) < 18000)) :=
  ⟨by norm_num, c3_no_validation 0 100 18000 (by norm_num)⟩

/-- C5: for valid parameters every band edge pair is strictly increasing,
consecutive bands are contiguous, the first low edge is exactly `start_freq`
and the last high edge is exactly `end_freq` (exact over `ℝ`, hence within
any floating-point tolerance). -/
theorem c5_band_edges (n : ℕ) (s e : ℝ) (hn : 1 ≤ n) (hs : 0 < s)
    (hse : s < e) :
    (∀ i, i < n → ((computeBandEdges n s e).getD i (0, 0)).1 <
      ((computeBandEdges n s e).getD i (0, 0)).2) ∧
    (∀ i, i + 1 < n → ((computeBandEdges n s e).getD (i + 1) (0, 0)).1 =
      ((computeBandEdges n s e).getD i (0, 0)).2) ∧
    ((computeBandEdges n s e).getD 0 (0, 0)).1 = s ∧
    ((computeBandEdges n s e).getD (n - 1) (0, 0)).2 = e := by
  have hne : (n : ℝ) ≠ 0 := Nat.cast_ne_zero.mpr (by omega)
  have hnpos : (0 : ℝ) < n := by
    have : 0 < n := by omega
    exact_mod_cast this
  have hstep : 0 < bandStep n s e := by
    have hlog : 0 < Real.logb 2 (e / s) :=
      Real.logb_pos (by norm_num) ((one_lt_div hs).mpr hse)
    exact div_pos hlog hnpos
  have hr1 : 1 < (2 : ℝ) ^ bandStep n s e := by
    have h0 : (1 : ℝ) = (2 : ℝ) ^ (0 : ℝ) := (Real.rpow_zero 2).symm
    rw [h0]
    exact (Real.rpow_lt_rpow_left_iff (by norm_num)).mpr hstep
  have hrpos : 0 < (2 : ℝ) ^ bandStep n s e := lt_trans one_pos hr1
  have hgd : ∀ i, i < n → (computeBandEdges n s e).getD i (0, 0) =
      (s * ((2 : ℝ) ^ bandStep n s e) ^ i,
        s * ((2 : ℝ) ^ bandStep n s e) ^ (i + 1)) :=
    fun i hi => bandEdgesAux_getD _ n s i hi
  have hlast : s * ((2 : ℝ) ^ bandStep n s e) ^ n = e := by
    have h1 : ((2 : ℝ) ^ bandStep n s e) ^ n =
        (2 : ℝ) ^ (bandStep n s e * n) := by
      rw [Real.rpow_mul (by norm_num), Real.rpow_natCast]
    have h2 : bandStep n s e * n = Real.logb 2 (e / s) := by
      field_simp [bandStep]
    rw [h1, h2, Real.rpow_logb (by norm_num) (by norm_num)
      (div_pos (lt_trans hs hse) hs)]
    field_simp
  refine ⟨?_, ?_, ?_, ?_⟩
  · intro i hi
    rw [hgd i hi]
    have hpow : 0 < s * ((2 : ℝ) ^ bandStep n s e) ^ i :=
      mul_pos hs (pow_pos hrpos i)
    calc s * ((2 : ℝ) ^ bandStep n s e) ^ i =
        s * ((2 : ℝ) ^ bandStep n s e) ^ i * 1 := (mul_one _).symm
      _ < s * ((2 : ℝ) ^ bandStep n s e) ^ i *
          ((2 : ℝ) ^ bandStep n s e) := by
        exact mul_lt_mul_of_pos_left hr1 hpow
      _ = s * ((2 : ℝ) ^ bandStep n s e) ^ (i + 1) := by ring
  · intro i hi
    rw [hgd (i + 1) hi, hgd i (by omega)]
  · rw [hgd 0 (by omega)]
    simp
  · rw [hgd (n - 1) (by omega)]
    have : n - 1 + 1 = n := by omega
    rw [this, hlast]

/-- C5 witness: the deployed configuration `(80, 100, 18000)`. -/
theorem c5_witness :
    (1 ≤ 80 ∧ (0 : ℝ) < 100 ∧ (100 : ℝ) < 18000) ∧
    ((∀ i, i < 80 → ((computeBandEdges 80 100 18000).getD i (0, 0)).1 <
        ((computeBandEdges 80 100 18000).getD i (0, 0)).2) ∧
      (∀ i, i + 1 < 80 →
        ((computeBandEdges 80 100 18000).getD (i + 1) (0, 0)).1 =
        ((computeBandEdges 80 100 18000).getD i (0, 0)).2) ∧
      ((computeBandEdges 80 100 18000).getD 0 (0, 0)).1 = 100 ∧
      ((computeBandEdges 80 100 18000).getD (80 - 1) (0, 0)).2 = 18000) :=
  ⟨⟨by norm_num, by norm_num, by norm_num⟩,
    c5_band_edges 80 100 18000 (by norm_num) (by norm_num) (by norm_num)⟩

/-! ## Normalizer/Quantizer (claim C6) -/

/-- C6: each output byte lies in `[0, 255]`; the input `0` maps to byte `0`
(its decibel value `20·log10(1e-10) = -200` is far below the `-85` floor, so
the clamp hits the minimum); and the emitted frame has exactly one byte per
band value — `band_count = FFT_BINS` bytes for the pipeline's spectrum. -/
theorem c6_quantizer (v : ℝ) (hv : 0 ≤ v) (vs : List ℝ) :
    0 ≤ quantizeValue v ∧ quantizeValue v ≤ 255 ∧
    quantizeValue 0 = 0 ∧
    (quantizeFrame vs).length = vs.length ∧
    (vs.length = FFT_BINS → (quantizeFrame vs).length = FFT_BINS) := by
  have h0c : (0 : ℝ) ≤ min 1 (max 0
      ((20 * Real.logb 10 (v + 1e-10) - minDb) / (maxDb - minDb))) :=
    le_min zero_le_one (le_max_left 0 _)
  have hc1 : min 1 (max 0
      ((20 * Real.logb 10 (v + 1e-10) - minDb) / (maxDb - minDb))) ≤ 1 :=
    min_le_left _ _
  refine ⟨?_, ?_, ?_, ?_, ?_⟩
  · exact Int.floor_nonneg.mpr (mul_nonneg h0c (by norm_num))
  · have h255 : min 1 (max 0
        ((20 * Real.logb 10 (v + 1e-10) - minDb) / (maxDb - minDb))) * 255 <
        ((256 : ℤ) : ℝ) := by
      push_cast
      nlinarith
    have := Int.floor_lt.mpr h255
    unfold quantizeValue
    omega
  · have heps : (0 : ℝ) + 1e-10 = ((10 : ℝ) ^ ((10 : ℕ) : ℝ))⁻¹ := by
      rw [Real.rpow_natCast]
      norm_num
    have hlogb : Real.logb 10 ((0 : ℝ) + 1e-10) = -10 := by
      rw [heps, Real.logb_inv,
        Real.logb_rpow (by norm_num : (0 : ℝ) < 10) (by norm_num)]
      norm_num
    unfold quantizeValue
    rw [hlogb]
    norm_num [minDb, maxDb]
  · simp [quantizeFrame]
  · intro h
    simp [quantizeFrame, h]

/-- C6 witness: the zero band value, and a frame of 80 zero bands. -/
theorem c6_witness :
    (0 : ℝ) ≤ 0 ∧
    (0 ≤ quantizeValue 0 ∧ quantizeValue 0 ≤ 255 ∧
      quantizeValue 0 = 0 ∧
      (quantizeFrame (List.replicate 80 0)).length =
        (List.replicate 80 (0 : ℝ)).length ∧
      ((List.replicate 80 (0 : ℝ)).length = FFT_BINS →
        (quantizeFrame (List.replicate 80 0)).length = FFT_BINS)) :=
  ⟨le_refl 0, c6_quantizer 0 (le_refl 0) (List.replicate 80 0)⟩

/-! ## Band Mapper edge policy (claim C7) -/

/-- Python truncation of a non-negative rational is its floor, hence
non-negative. -/
theorem pyInt_nonneg {q : ℚ} (h : 0 ≤ q) : 0 ≤ pyInt q := by
  rw [pyInt, if_pos h]
  exact Int.floor_nonneg.mpr h

/-- C7: for a non-negative query frequency and a magnitude array of length
`FFT_SIZE/2 + 1`, both interpolation indices and the whole interior-scan
range are clamped into `[0, len - 1]` (no out-of-range read), and an
interpolation that evaluates to NaN contributes `0`. -/
theorem c7_band_mapper_safety (mags : List FVal) (freq lo hi : ℚ)
    (hlen : mags.length = FFT_SIZE / 2 + 1) (hf : 0 ≤ freq) (hlo : 0 ≤ lo) :
    (0 ≤ interpBinLo mags.length freq ∧
      interpBinLo mags.length freq ≤ (mags.length : ℤ) - 1) ∧
    (0 ≤ interpBinHi mags.length freq ∧
      interpBinHi mags.length freq ≤ (mags.length : ℤ) - 1) ∧
    (∀ a b, interiorScan mags.length lo hi = some (a, b) →
      0 ≤ a ∧ a ≤ b ∧ b ≤ (mags.length : ℤ) - 1) ∧
    (interpolateRaw mags freq = FVal.nan → interpolateFft mags freq = 0) := by
  have hlen1 : 1 ≤ mags.length := by
    rw [hlen]
    omega
  have hbw : 0 < binWidth := by
    norm_num [binWidth, SAMPLE_RATE, FFT_SIZE]
  have hfq : 0 ≤ pyInt (freq / binWidth) :=
    pyInt_nonneg (div_nonneg hf hbw.le)
  refine ⟨⟨le_max_left 0 _, ?_⟩, ⟨?_, min_le_right _ _⟩, ?_, ?_⟩
  · exact max_le (by omega) (min_le_right _ _)
  · exact le_min (by omega) (by omega)
  · intro a b hab
    have hloq : 0 ≤ pyInt (lo / binWidth) :=
      pyInt_nonneg (div_nonneg hlo hbw.le)
    simp only [interiorScan] at hab
    split_ifs at hab with h1 h2
    · simp only [Option.some.injEq, Prod.mk.injEq] at hab
      obtain ⟨rfl, rfl⟩ := hab
      exact ⟨by omega, h2, min_le_right _ _⟩
  · intro h
    unfold interpolateFft
    rw [h]

/-- C7 witness: a 513-bin magnitude array (the `FFT_SIZE = 1024` rfft
length) with concrete frequencies. -/
theorem c7_witness :
    ((List.replicate 513 (FVal.val 0)).length = FFT_SIZE / 2 + 1 ∧
      (0 : ℚ) ≤ 5 ∧ (0 : ℚ) ≤ 3) ∧
    ((0 ≤ interpBinLo (List.replicate 513 (FVal.val 0)).length 5 ∧
        interpBinLo (List.replicate 513 (FVal.val 0)).length 5 ≤
          ((List.replicate 513 (FVal.val 0)).length : ℤ) - 1) ∧
      (0 ≤ interpBinHi (List.replicate 513 (FVal.val 0)).length 5 ∧
        interpBinHi (List.replicate 513 (FVal.val 0)).length 5 ≤
          ((List.replicate 513 (FVal.val 0)).length : ℤ) - 1) ∧
      (∀ a b, interiorScan (List.replicate 513 (FVal.val 0)).length 3 7 =
          some (a, b) →
        0 ≤ a ∧ a ≤ b ∧
          b ≤ ((List.replicate 513 (FVal.val 0)).length : ℤ) - 1) ∧
      (interpolateRaw (List.replicate 513 (FVal.val 0)) 5 = FVal.nan →
        interpolateFft (List.replicate 513 (FVal.val 0)) 5 = 0)) :=
  ⟨⟨by norm_num [FFT_SIZE], by norm_num, by norm_num⟩,
    c7_band_mapper_safety (List.replicate 513 (FVal.val 0)) 5 3 7
      (by norm_num [FFT_SIZE]) (by norm_num) (by norm_num)⟩

end FFTVis
